import Mathlib

/-!
Verification of `packages/starlight-llms-txt/entryToSimpleMarkdown.ts`.

The file shallowly embeds the hast (HTML AST) tree model, the CSS-selector
matching used by `hast-util-select` (`matches` / `select` / `selectAll`), the
`unist-util-remove` removal algorithm (with its default cascade behaviour), and
the four tree transformers of the rehype pipeline together with the string-level
post-processing of `entryToSimpleMarkdown`.
-/

namespace StarlightLlmsTxt

/-- Element properties as produced by `rehype-parse`: a class-token list
(`className` is always parsed to an array of tokens), the `data-language`
attribute surfaced as the `dataLanguage` property, and the remaining
attributes (e.g. `role`) as name/value pairs. -/
structure Props where
  className : List String := []
  dataLanguage : Option String := none
  attrs : List (String × String) := []
deriving Repr, DecidableEq

/-- A hast content node: an element with tag, properties and children, or a
text node. -/
inductive Node where
  | element (tagName : String) (properties : Props) (children : List Node)
  | text (value : String)
deriving Repr

/-- One simple selector component of a compound CSS selector. -/
inductive SimpleSel where
  | tag (name : String)
  | cls (name : String)
  | attrEq (name value : String)
  | notCls (name : String)
deriving Repr, DecidableEq

/-- A CSS selector list: a disjunction (comma list) of compound selectors,
each compound being a conjunction of simple selectors. -/
abbrev Selector : Type := List (List SimpleSel)

/-- Attribute lookup in an element's property map. -/
def getAttr (p : Props) (name : String) : Option String :=
  (p.attrs.find? (fun a => a.1 == name)).map (fun a => a.2)

/-- Evaluation of one simple selector against an element's tag and
properties. -/
def matchesSimple (s : SimpleSel) (t : String) (p : Props) : Bool :=
  match s with
  | .tag n => t == n
  | .cls c => p.className.contains c
  | .attrEq n v => getAttr p n == some v
  | .notCls c => !(p.className.contains c)

/-- Model of `hast-util-select`'s `matches`: a selector list matches an element when
some compound of the list has all its simple selectors true of the element;
non-element nodes never match. -/
def matchesSel (sel : Selector) (n : Node) : Bool :=
  match n with
  | .element t p _ => sel.any (fun comp => comp.all (fun s => matchesSimple s t p))
  | .text _ => false

def childrenOf : Node → List Node
  | .element _ _ cs => cs
  | .text _ => []

def classNameOf : Node → List String
  | .element _ p _ => p.className
  | .text _ => []

/-- Append one class token, as `code.properties.className.push(...)` does. -/
def pushClass (p : Props) (c : String) : Props :=
  { p with className := p.className ++ [c] }

def emptyProps : Props := {}

/-- The truthy `data-language` value of a node (`pre?.properties.dataLanguage`
is used in a boolean position, so the empty string counts as absent). -/
def langOf (n : Node) : Option String :=
  match n with
  | .element _ p _ =>
    match p.dataLanguage with
    | some l => if l == "" then none else some l
    | none => none
  | .text _ => none

mutual
/-- Model of `select(sel, tree)`: first node of the subtree (preorder, the root
included) satisfying the predicate. -/
def selectNode (p : Node → Bool) : Node → Option Node
  | .text v => if p (.text v) then some (.text v) else none
  | .element t pr cs =>
    if p (.element t pr cs) then some (.element t pr cs) else selectList p cs

def selectList (p : Node → Bool) : List Node → Option Node
  | [] => none
  | c :: cs =>
    match selectNode p c with
    | some m => some m
    | none => selectList p cs
end

mutual
/-- Model of `selectAll(sel, tree)`: all nodes of the subtree (preorder, the root
included) satisfying the predicate. -/
def selectAllNode (p : Node → Bool) : Node → List Node
  | .text v => if p (.text v) then [.text v] else []
  | .element t pr cs =>
    (if p (.element t pr cs) then [Node.element t pr cs] else []) ++ selectAllList p cs

def selectAllList (p : Node → Bool) : List Node → List Node
  | [] => []
  | c :: cs => selectAllNode p c ++ selectAllList p cs
end

mutual
/-- In-place mutation of the node found by `select`: replace the first node
(preorder, root included) satisfying `p` by its image under `f`; the boolean
reports whether a node was replaced. -/
def updateFirst (p : Node → Bool) (f : Node → Node) : Node → Node × Bool
  | .text v => if p (.text v) then (f (.text v), true) else (.text v, false)
  | .element t pr cs =>
    if p (.element t pr cs) then (f (.element t pr cs), true)
    else
      let r := updateFirstList p f cs
      (.element t pr r.1, r.2)

def updateFirstList (p : Node → Bool) (f : Node → Node) : List Node → List Node × Bool
  | [] => ([], false)
  | c :: cs =>
    let r := updateFirst p f c
    if r.2 then (r.1 :: cs, true)
    else
      let rs := updateFirstList p f cs
      (c :: rs.1, rs.2)
end

mutual
/-- Model of `unist-util-remove`'s recursive `preorder` as seen by the parent
of an inner node, with the default `cascade: true`: `none` when the node is
reported removed — because it satisfies `test`, or because it had children
and all of them were filtered away (cascade) — and otherwise the node with
its compacted children.  A removed node is returned before any mutation, so
its own subtree is left intact; that only becomes observable at the call
root, which `removeOnNode` below models. -/
def removeNode (test : Node → Bool) : Node → Option Node
  | .text v => if test (.text v) then none else some (.text v)
  | .element t p cs =>
    if test (.element t p cs) then none
    else if cs.length != 0 && (removeList test cs).length == 0 then none
    else some (.element t p (removeList test cs))

def removeList (test : Node → Bool) : List Node → List Node
  | [] => []
  | c :: cs =>
    match removeNode test c with
    | some c' => c' :: removeList test cs
    | none => removeList test cs
end

/-- Model of a `remove(tree, test)` call whose return value is discarded, as
both call sites of the source do: the mutation observed on the node `remove`
was called on.  `preorder` tests the call root first and runs its cascade
check (`position === 0`) before the truncation `nodes.length = position`, so
when the call root itself matches, or when every one of its children is
removed, it returns early and the original children — no compaction write
having happened — are left fully in place. -/
def removeOnNode (test : Node → Bool) : Node → Node
  | .text v => .text v
  | .element t p cs =>
    if test (.element t p cs) then .element t p cs
    else if cs.length != 0 && (removeList test cs).length == 0 then .element t p cs
    else .element t p (removeList test cs)

/-! ## String utilities (JavaScript whitespace semantics) -/

/-- JavaScript's whitespace class: the characters matched by `\s` and trimmed
by `String.prototype.trim`. -/
def isJsWs (c : Char) : Bool :=
  c == ' ' || c == '\t' || c == '\n' || c == '\r' ||
  c.toNat == 0x0b || c.toNat == 0x0c ||
  c.toNat == 0xa0 || c.toNat == 0x1680 ||
  (0x2000 ≤ c.toNat && c.toNat ≤ 0x200a) ||
  c.toNat == 0x2028 || c.toNat == 0x2029 || c.toNat == 0x202f ||
  c.toNat == 0x205f || c.toNat == 0x3000 || c.toNat == 0xfeff

/-- Model of `String.prototype.trim`. -/
def jsTrim (s : String) : String :=
  ⟨((s.data.dropWhile isJsWs).reverse.dropWhile isJsWs).reverse⟩

/-- Model of `s.replace(/\s+/g, ' ')` on the character list: each maximal run of
whitespace becomes a single space.  The boolean records whether the previous
character belonged to a whitespace run. -/
def collapseAux : Bool → List Char → List Char
  | _, [] => []
  | prevWs, c :: cs =>
    if isJsWs c then
      if prevWs then collapseAux true cs else ' ' :: collapseAux true cs
    else c :: collapseAux false cs

/-- Model of `markdown.replace(/\s+/g, ' ')`. -/
def collapseWs (s : String) : String := ⟨collapseAux false s.data⟩

/-- No two consecutive whitespace characters. -/
def noTwoWs : List Char → Bool
  | c :: c' :: cs => !(isJsWs c && isJsWs c') && noTwoWs (c' :: cs)
  | _ => true

/-- The first character, if any, is not whitespace. -/
def headNonWs (cs : List Char) : Bool :=
  match cs.head? with
  | none => true
  | some c => !isJsWs c

/-- The last character, if any, is not whitespace. -/
def lastNonWs (cs : List Char) : Bool :=
  match cs.getLast? with
  | none => true
  | some c => !isJsWs c

/-- Neither a leading nor a trailing whitespace character. -/
def wsTrimmed (cs : List Char) : Bool :=
  headNonWs cs && lastNonWs cs

/-! ## Minify configuration and the Minify Filter -/

/-- Resolved minification options (`minify` in the source). -/
structure MinifyOptions where
  note : Bool
  tip : Bool
  caution : Bool
  danger : Bool
  details : Bool
  whitespace : Bool
  customSelectors : List Selector
deriving Repr

/-- The `minifyDefaults` record from the source. -/
def minifyDefaults : MinifyOptions :=
  { note := true, tip := true, caution := false, danger := false,
    details := true, whitespace := true, customSelectors := [] }

/-- User-supplied partial minification options (keys may be absent). -/
structure MinifyUserOptions where
  note : Option Bool := none
  tip : Option Bool := none
  caution : Option Bool := none
  danger : Option Bool := none
  details : Option Bool := none
  whitespace : Option Bool := none
  customSelectors : Option (List Selector) := none

/-- The spread `... minifyDefaults` overlaid with the user options: per-key
override of the defaults by the user options. -/
def resolveMinify (u : MinifyUserOptions) : MinifyOptions :=
  { note := u.note.getD minifyDefaults.note,
    tip := u.tip.getD minifyDefaults.tip,
    caution := u.caution.getD minifyDefaults.caution,
    danger := u.danger.getD minifyDefaults.danger,
    details := u.details.getD minifyDefaults.details,
    whitespace := u.whitespace.getD minifyDefaults.whitespace,
    customSelectors := u.customSelectors.getD minifyDefaults.customSelectors }

def detailsSel : Selector := [[.tag "details"]]
def asideSel : Selector := [[.cls "starlight-aside"]]
def asideVariantSel (v : String) : Selector := [[.cls ("starlight-aside--" ++ v)]]

/-- The `selectors` list: the custom selectors, with `details` put first when that flag
is set. -/
def minifySelectors (m : MinifyOptions) : List Selector :=
  (if m.details then [detailsSel] else []) ++ m.customSelectors

def minifyVariants : List String := ["note", "tip", "caution", "danger"]

def variantFlag (m : MinifyOptions) (v : String) : Bool :=
  if v == "note" then m.note
  else if v == "tip" then m.tip
  else if v == "caution" then m.caution
  else if v == "danger" then m.danger
  else false

/-- The removal predicate of `minifyLlmsTxt`: any configured selector, or an
aside (`.starlight-aside`) whose variant class is flagged for removal. -/
def minifyTest (m : MinifyOptions) (n : Node) : Bool :=
  (minifySelectors m).any (fun sel => matchesSel sel n) ||
    (matchesSel asideSel n &&
      minifyVariants.any (fun v => variantFlag m v && matchesSel (asideVariantSel v) n))

/-- The `minifyLlmsTxt` transformer on the root's children: an early return
leaves the tree untouched when minification is not requested, otherwise
`remove(tree, test)` drops every matching subtree.  The hast root never
matches the element-only test, but the call-root cascade still applies: when
every root child is removed, `preorder` returns before truncating, so the
root keeps all its original children untouched. -/
def minifyStage (m : MinifyOptions) (shouldMinify : Bool) (tree : List Node) : List Node :=
  if shouldMinify then
    if tree.length != 0 && (removeList (minifyTest m) tree).length == 0 then tree
    else removeList (minifyTest m) tree
  else tree

/-! ## The Code-Block Normalizer (`improveExpressiveCodeHandling`) -/

def expressiveCodeSel : Selector := [[.cls "expressive-code"]]
def figcaptionSel : Selector := [[.tag "figcaption"]]
def srOnlySpanSel : Selector := [[.tag "span", .cls "sr-only"]]
def preSel : Selector := [[.tag "pre"]]
def codeSel : Selector := [[.tag "code"]]
def diffLineSel : Selector :=
  [[.tag "div", .cls "ec-line", .cls "ins"], [.tag "div", .cls "ec-line", .cls "del"]]
def spanNotIndentSel : Selector := [[.tag "span", .notCls "indent"]]

/-- Splice out the first direct child matching `span.sr-only` (the
“Terminal Window” label) from a figcaption. -/
def removeSrOnlyChild (fc : Node) : Node :=
  match fc with
  | .element t p cs =>
    match cs.findIdx? (fun c => matchesSel srOnlySpanSel c) with
    | some i => .element t p (cs.eraseIdx i)
    | none => .element t p cs
  | .text v => .text v

/-- Prepend the diff marker to the value of the first text child of the first
non-indent span of a diff-marked line. -/
def prefixFirstTextChild (marker : String) (span : Node) : Node :=
  match span with
  | .element t p (Node.text v :: rest) => .element t p (Node.text (marker ++ v) :: rest)
  | other => other

/-- Treatment of one `ins`/`del`-flagged line: pick `+` or `-` from the class
list and mutate the first text run of its first `span:not(.indent)`. -/
def prefixDiffLine (line : Node) : Node :=
  match line with
  | .element t p cs =>
    let marker := if p.className.contains "ins" then "+" else "-"
    (updateFirst (matchesSel spanNotIndentSel) (prefixFirstTextChild marker) (.element t p cs)).1
  | .text v => .text v

/-- The language-classing applied to the selected `code` element: push
`language-<lang>` when there are no diff lines (in particular whenever the
declared language is `diff`), otherwise push `language-diff` and prefix each
flagged line. -/
def transformCode (lang : String) (code : Node) : Node :=
  match code with
  | .element t p cs =>
    let diffLines := if lang == "diff" then [] else cs.filter (fun c => matchesSel diffLineSel c)
    if diffLines.isEmpty then
      .element t (pushClass p ("language-" ++ lang)) cs
    else
      .element t (pushClass p "language-diff")
        (cs.map (fun c => if matchesSel diffLineSel c then prefixDiffLine c else c))
  | .text v => .text v

/-- The figcaption step of the per-instance handler: remove the sr-only label
from the first figcaption, if any. -/
def ecFigStep (inst : Node) : Node :=
  (updateFirst (matchesSel figcaptionSel) removeSrOnlyChild inst).1

/-- The language step: locate the first `pre` and `code`; only when both are
present and the `pre` carries a truthy `data-language` is the `code` element
rewritten. -/
def ecLangStep (inst : Node) : Node :=
  match selectNode (matchesSel preSel) inst with
  | none => inst
  | some pre =>
    match selectNode (matchesSel codeSel) inst with
    | none => inst
    | some _ =>
      match langOf pre with
      | none => inst
      | some lang => (updateFirst (matchesSel codeSel) (transformCode lang) inst).1

/-- The loop body of `improveExpressiveCodeHandling` on one
`.expressive-code` instance. -/
def ecInstance (inst : Node) : Node := ecLangStep (ecFigStep inst)

mutual
/-- The whole-tree Code-Block Normalizer: every `.expressive-code` instance
gets the per-instance treatment. -/
def ecPass : Node → Node
  | .text v => .text v
  | .element t p cs =>
    let n := Node.element t p (ecPassList cs)
    if matchesSel expressiveCodeSel n then ecInstance n else n

def ecPassList : List Node → List Node
  | [] => []
  | c :: cs => ecPass c :: ecPassList cs
end

/-! ## The Tabs Flattener (`improveTabsHandling`) -/

def starlightTabsSel : Selector := [[.tag "starlight-tabs"]]
def roleTabSel : Selector := [[.attrEq "role" "tab"]]
def roleTabPanelSel : Selector := [[.attrEq "role" "tabpanel"]]

/-- The tab's label text: its direct text children whose trimmed value is
non-empty, each trimmed, joined with no separator. -/
def tabLabel (tab : Node) : String :=
  (((childrenOf tab).filter (fun c =>
      match c with
      | .text v => jsTrim v != ""
      | .element _ _ _ => false)).map (fun c =>
      match c with
      | .text v => jsTrim v
      | .element _ _ _ => "")).foldl (fun a b => a ++ b) ""

/-- The loop body of `improveTabsHandling` on one `starlight-tabs` instance:
collect tabs and panels, convert the element to an empty `ul`, and push one
`li` (label paragraph followed by the original panel) per index below the
shorter of the two sequences. -/
def flattenTabsInstance (inst : Node) : Node :=
  match inst with
  | .text v => .text v
  | .element _ _ _ =>
    let tabs := selectAllNode (matchesSel roleTabSel) inst
    let panels := selectAllNode (matchesSel roleTabPanelSel) inst
    let items := (List.range (min tabs.length panels.length)).filterMap (fun i =>
      match tabs[i]?, panels[i]? with
      | some tab, some panel =>
        some (Node.element "li" emptyProps
          [Node.element "p" emptyProps [Node.text (tabLabel tab)], panel])
      | _, _ => none)
    .element "ul" emptyProps items

mutual
/-- The whole-tree Tabs Flattener: every `starlight-tabs` instance is
flattened. -/
def tabsPass : Node → Node
  | .text v => .text v
  | .element t p cs =>
    let n := Node.element t p (tabsPassList cs)
    if matchesSel starlightTabsSel n then flattenTabsInstance n else n

def tabsPassList : List Node → List Node
  | [] => []
  | c :: cs => tabsPass c :: tabsPassList cs
end

/-! ## The File-Tree Label Stripper (`improveFileTreeHandling`) -/

def fileTreeSel : Selector := [[.tag "starlight-file-tree"]]
def srOnlySel : Selector := [[.cls "sr-only"]]

mutual
/-- The whole-tree File-Tree Label Stripper: every `starlight-file-tree`
instance receives a `remove(tree, '.sr-only')` call whose return value is
ignored, modelled by `removeOnNode` with its call-root behaviour — an
instance that itself matches `.sr-only`, or whose children are all removed,
keeps its children untouched.  Nested instances are all processed, as the
source collects every instance upfront. -/
def fileTreePass : Node → Node
  | .text v => .text v
  | .element t p cs =>
    let n := Node.element t p (fileTreePassList cs)
    if matchesSel fileTreeSel n then removeOnNode (matchesSel srOnlySel) n else n

def fileTreePassList : List Node → List Node
  | [] => []
  | c :: cs => fileTreePass c :: fileTreePassList cs
end

/-- The tree stages of `htmlToMarkdownPipeline` in their registration order:
Minify Filter, Code-Block Normalizer, Tabs Flattener, File-Tree Label
Stripper, applied to the parsed fragment's root children. -/
def transformTree (m : MinifyOptions) (shouldMinify : Bool) (tree : List Node) : List Node :=
  fileTreePassList (tabsPassList (ecPassList (minifyStage m shouldMinify tree)))

/-! ## `entryToSimpleMarkdown` -/

/-- A content collection entry: its identifier and its (possibly absent) raw
body. -/
structure Entry where
  id : String
  body : Option String
deriving Repr

/-- The `starlightLllmsTxtContext` data used by `entryToSimpleMarkdown`:
the `rawMDX` flag and the resolved minification options. -/
structure Context where
  rawMDX : Bool
  minify : MinifyOptions

/-- Model of `entry.id.endsWith('.mdx')`. -/
def strEndsWith (s suffix : String) : Bool :=
  suffix.data.isSuffixOf s.data

/-- The string post-processing after the external serialization:
`String(file).trim()`, then the whitespace collapse when minification was
requested and the whitespace flag is set. -/
def postSerialize (shouldMinify whitespaceFlag : Bool) (serialized : String) : String :=
  if shouldMinify && whitespaceFlag then collapseWs (jsTrim serialized)
  else jsTrim serialized

/-- Model of `entryToSimpleMarkdown`: the passthrough for MDX sources (or when
`rawMDX` is enabled) returns `entry.body || ''` directly; otherwise the
rendered HTML goes through the pipeline — the parse, the structural-to-markup
conversion and the serialization are external capabilities, so the serialized
pipeline output is abstracted as the `serialized` argument — and is
post-processed at the string level. -/
def entryToSimpleMarkdown (ctx : Context) (entry : Entry) (shouldMinify : Bool)
    (serialized : String) : String :=
  if strEndsWith entry.id ".mdx" || ctx.rawMDX then
    entry.body.getD ""
  else
    postSerialize shouldMinify ctx.minify.whitespace serialized

/-! ## Occurrence of a node inside a tree, and a nested induction principle -/

/-- Occurrence relation `Occurs d n`: the node `d` is `n` itself or appears somewhere in `n`'s
subtree. -/
inductive Occurs : Node → Node → Prop where
  | refl (n : Node) : Occurs n n
  | child {d c : Node} {t : String} {p : Props} {cs : List Node} :
      c ∈ cs → Occurs d c → Occurs d (.element t p cs)

/-- Structural induction for `Node`, with the membership form of the
induction hypothesis for children. -/
def Node.inductionOn {motive : Node → Prop}
    (htext : ∀ v, motive (.text v))
    (helem : ∀ t p cs, (∀ c ∈ cs, motive c) → motive (.element t p cs)) :
    ∀ n, motive n
  | .text v => htext v
  | .element t p cs =>
    helem t p cs (fun c hc =>
      Node.inductionOn htext helem c)
termination_by n => sizeOf n
decreasing_by
  simp only [Node.element.sizeOf_spec]
  have := List.sizeOf_lt_of_mem hc
  omega

mutual
/-- All text values of a subtree, in document order. -/
def collectTexts : Node → List String
  | .text v => [v]
  | .element _ _ cs => collectTextsList cs

/-- All text values of a forest, in document order. -/
def collectTextsList : List Node → List String
  | [] => []
  | c :: cs => collectTexts c ++ collectTextsList cs
end

/-! ## Concrete sample widgets and inputs -/

/-- A rich code sample declaring `data-language="diff"` with an `ins` line
containing `foo` and a `del` line containing `bar`. -/
def diffDeclaredWidget : Node :=
  .element "div" {className := ["expressive-code"]} [
    .element "pre" {dataLanguage := some "diff"} [
      .element "code" {} [
        .element "div" {className := ["ec-line", "ins"]} [
          .element "span" {} [.text "foo"]],
        .element "div" {className := ["ec-line", "del"]} [
          .element "span" {} [.text "bar"]]]]]

/-- The `pre` element of `diffDeclaredWidget`. -/
def diffDeclaredPre : Node :=
  .element "pre" {dataLanguage := some "diff"} [
    .element "code" {} [
      .element "div" {className := ["ec-line", "ins"]} [
        .element "span" {} [.text "foo"]],
      .element "div" {className := ["ec-line", "del"]} [
        .element "span" {} [.text "bar"]]]]

/-- A rich code sample with `ins`/`del` lines whose `pre` declares
`data-language="js"`; the `ins` line starts with an indentation span. -/
def jsDiffWidget : Node :=
  .element "div" {className := ["expressive-code"]} [
    .element "pre" {dataLanguage := some "js"} [
      .element "code" {} [
        .element "div" {className := ["ec-line", "ins"]} [
          .element "span" {className := ["indent"]} [.text "  "],
          .element "span" {} [.text "foo"]],
        .element "div" {className := ["ec-line", "del"]} [
          .element "span" {} [.text "bar"]]]]]

def jsDiffPre : Node :=
  .element "pre" {dataLanguage := some "js"} [
    .element "code" {} [
      .element "div" {className := ["ec-line", "ins"]} [
        .element "span" {className := ["indent"]} [.text "  "],
        .element "span" {} [.text "foo"]],
      .element "div" {className := ["ec-line", "del"]} [
        .element "span" {} [.text "bar"]]]]

def jsDiffInsLine : Node :=
  .element "div" {className := ["ec-line", "ins"]} [
    .element "span" {className := ["indent"]} [.text "  "],
    .element "span" {} [.text "foo"]]

def jsDiffDelLine : Node :=
  .element "div" {className := ["ec-line", "del"]} [
    .element "span" {} [.text "bar"]]

def jsDiffCode : Node :=
  .element "code" {} [jsDiffInsLine, jsDiffDelLine]

def jsDiffInsSpan : Node := .element "span" {} [.text "foo"]

def jsDiffDelSpan : Node := .element "span" {} [.text "bar"]

/-- A rich code sample with `ins`/`del` lines whose `pre` carries no
`data-language` attribute at all. -/
def noLangDiffWidget : Node :=
  .element "div" {className := ["expressive-code"]} [
    .element "pre" {} [
      .element "code" {} [
        .element "div" {className := ["ec-line", "ins"]} [
          .element "span" {} [.text "foo"]],
        .element "div" {className := ["ec-line", "del"]} [
          .element "span" {} [.text "bar"]]]]]

/-- A rich code sample declaring `data-language="python"` with one ordinary
line. -/
def pythonWidget : Node :=
  .element "div" {className := ["expressive-code"]} [
    .element "pre" {dataLanguage := some "python"} [
      .element "code" {} [
        .element "div" {className := ["ec-line"]} [
          .element "span" {} [.text "print(1)"]]]]]

def pythonPre : Node :=
  .element "pre" {dataLanguage := some "python"} [
    .element "code" {} [
      .element "div" {className := ["ec-line"]} [
        .element "span" {} [.text "print(1)"]]]]

def pythonCode : Node :=
  .element "code" {} [
    .element "div" {className := ["ec-line"]} [
      .element "span" {} [.text "print(1)"]]]

/-- An element carrying only the variant class `starlight-aside--note`,
without the `starlight-aside` class. -/
def bareVariantAside : Node :=
  .element "div" {className := ["starlight-aside--note"]} [.text "hello"]

/-- A small tree holding a `details` widget, a note aside and a paragraph. -/
def minifySampleTree : List Node :=
  [.element "details" {} [.text "d"],
   .element "aside" {className := ["starlight-aside", "starlight-aside--note"]} [.text "n"],
   .element "p" {} [.text "keep"]]

/-- A file-tree widget whose entry holds a screen-reader-only label. -/
def fileTreeSample : List Node :=
  [.element "starlight-file-tree" {className := ["ft"]} [
    .element "li" {} [
      .element "span" {className := ["sr-only"]} [.text "Directory"],
      .text "src"]]]

/-- A file-tree widget whose only child is a screen-reader-only label, so the
`remove` call cascades at its root. -/
def fileTreeAllLabels : List Node :=
  [.element "starlight-file-tree" {className := ["ft"]} [
    .element "span" {className := ["sr-only"]} [.text "Directory"]]]

/-! ## Helper lemmas -/

theorem Occurs.trans {a b c : Node} (hab : Occurs a b) (hbc : Occurs b c) : Occurs a c := by
  induction hbc with
  | refl => exact hab
  | child hmem _ ih => exact Occurs.child hmem ih

theorem occurs_text {n : Node} {v : String} (h : Occurs n (.text v)) : n = .text v := by
  cases h with
  | refl => rfl

theorem occurs_elem {n : Node} {t : String} {p : Props} {cs : List Node}
    (h : Occurs n (.element t p cs)) :
    n = .element t p cs ∨ ∃ c ∈ cs, Occurs n c := by
  cases h with
  | refl => exact Or.inl rfl
  | child hmem hocc => exact Or.inr ⟨_, hmem, hocc⟩

theorem selectList_sat {p : Node → Bool} :
    ∀ {cs : List Node} {m : Node}, selectList p cs = some m →
      (∀ c ∈ cs, ∀ m', selectNode p c = some m' → p m' = true) → p m = true := by
  intro cs
  induction cs with
  | nil => intro m h _; simp [selectList] at h
  | cons c cs ih =>
    intro m h hall
    rw [selectList] at h
    cases hsel : selectNode p c with
    | some m' =>
      rw [hsel] at h
      cases h
      exact hall c (List.mem_cons_self c cs) m hsel
    | none =>
      rw [hsel] at h
      exact ih h (fun c' hc' => hall c' (List.mem_cons_of_mem c hc'))

/-- The node returned by `selectNode` satisfies the predicate. -/
theorem selectNode_sat {p : Node → Bool} :
    ∀ {n m : Node}, selectNode p n = some m → p m = true := by
  intro n
  induction n using Node.inductionOn with
  | htext v =>
    intro m h
    rw [selectNode] at h
    by_cases hp : p (.text v) = true
    · rw [if_pos hp] at h; cases h; exact hp
    · rw [if_neg hp] at h; cases h
  | helem t pr cs ih =>
    intro m h
    rw [selectNode] at h
    by_cases hp : p (.element t pr cs) = true
    · rw [if_pos hp] at h; cases h; exact hp
    · rw [if_neg hp] at h
      exact selectList_sat h (fun c hc m' hm' => ih c hc hm')

theorem updateFirstList_cons_found {p : Node → Bool} {f : Node → Node} {c : Node}
    {cs : List Node} (h2 : (updateFirst p f c).2 = true) :
    updateFirstList p f (c :: cs) = ((updateFirst p f c).1 :: cs, true) := by
  rw [updateFirstList]
  simp [h2]

theorem updateFirstList_cons_skip {p : Node → Bool} {f : Node → Node} {c : Node}
    {cs : List Node} (h : updateFirst p f c = (c, false)) :
    updateFirstList p f (c :: cs) =
      (c :: (updateFirstList p f cs).1, (updateFirstList p f cs).2) := by
  rw [updateFirstList, h]
  rfl

theorem updateFirstList_none {p : Node → Bool} {f : Node → Node} :
    ∀ {cs : List Node}, selectList p cs = none →
      (∀ c ∈ cs, selectNode p c = none → updateFirst p f c = (c, false)) →
      updateFirstList p f cs = (cs, false) := by
  intro cs
  induction cs with
  | nil => intro _ _; rfl
  | cons c cs ih =>
    intro h hall
    rw [selectList] at h
    cases hsel : selectNode p c with
    | some m => rw [hsel] at h; cases h
    | none =>
      rw [hsel] at h
      rw [updateFirstList_cons_skip (hall c (List.mem_cons_self c cs) hsel),
        ih h (fun c' hc' => hall c' (List.mem_cons_of_mem c hc'))]

/-- When no node matches, `updateFirst` changes nothing and reports `false`. -/
theorem updateFirst_none {p : Node → Bool} {f : Node → Node} :
    ∀ {n : Node}, selectNode p n = none → updateFirst p f n = (n, false) := by
  intro n
  induction n using Node.inductionOn with
  | htext v =>
    intro h
    rw [selectNode] at h
    by_cases hp : p (.text v) = true
    · rw [if_pos hp] at h; cases h
    · rw [updateFirst, if_neg hp]
  | helem t pr cs ih =>
    intro h
    rw [selectNode] at h
    by_cases hp : p (.element t pr cs) = true
    · rw [if_pos hp] at h; cases h
    · rw [if_neg hp] at h
      rw [updateFirst, if_neg hp]
      rw [updateFirstList_none h (fun c hc h' => ih c hc h')]

/-- A node satisfying the predicate is its own first match. -/
theorem selectNode_self {p : Node → Bool} {n : Node} (h : p n = true) :
    selectNode p n = some n := by
  cases n with
  | text v => rw [selectNode, if_pos h]
  | element t pr cs => rw [selectNode, if_pos h]

theorem updateFirstList_select {p : Node → Bool} {f : Node → Node} :
    ∀ {cs : List Node} {m : Node}, selectList p cs = some m →
      (∀ c ∈ cs, ∀ m', selectNode p c = some m' → p (f m') = true →
        selectNode p (updateFirst p f c).1 = some (f m') ∧ (updateFirst p f c).2 = true) →
      p (f m) = true →
      selectList p (updateFirstList p f cs).1 = some (f m) ∧
        (updateFirstList p f cs).2 = true := by
  intro cs
  induction cs with
  | nil => intro m h _ _; simp [selectList] at h
  | cons c cs ih =>
    intro m h hall hfm
    rw [selectList] at h
    cases hsel : selectNode p c with
    | some m' =>
      rw [hsel] at h
      cases h
      have hc := hall c (List.mem_cons_self c cs) m hsel hfm
      rw [updateFirstList_cons_found hc.2]
      refine ⟨?_, rfl⟩
      rw [selectList, hc.1]
    | none =>
      rw [hsel] at h
      have hc : updateFirst p f c = (c, false) := updateFirst_none hsel
      have hrest := ih h (fun c' hc' => hall c' (List.mem_cons_of_mem c hc')) hfm
      rw [updateFirstList_cons_skip hc]
      refine ⟨?_, hrest.2⟩
      rw [selectList, hsel, hrest.1]

/-- The select-then-mutate pattern: replacing the first matching node by its image under
`f` makes that image the first matching node of the result, provided the image
still matches and matching ignores children. -/
theorem updateFirst_select {p : Node → Bool} {f : Node → Node}
    (hinv : ∀ t pr cs cs', p (.element t pr cs) = p (.element t pr cs')) :
    ∀ {n m : Node}, selectNode p n = some m → p (f m) = true →
      selectNode p (updateFirst p f n).1 = some (f m) ∧ (updateFirst p f n).2 = true := by
  intro n
  induction n using Node.inductionOn with
  | htext v =>
    intro m h hfm
    rw [selectNode] at h
    by_cases hp : p (.text v) = true
    · rw [if_pos hp] at h
      cases h
      rw [updateFirst, if_pos hp]
      exact ⟨selectNode_self hfm, rfl⟩
    · rw [if_neg hp] at h; cases h
  | helem t pr cs ih =>
    intro m h hfm
    rw [selectNode] at h
    by_cases hp : p (.element t pr cs) = true
    · rw [if_pos hp] at h
      cases h
      rw [updateFirst, if_pos hp]
      exact ⟨selectNode_self hfm, rfl⟩
    · rw [if_neg hp] at h
      have hrest := updateFirstList_select h
        (fun c hc m' hm' hfm' => ih c hc hm' hfm') hfm
      have hshape : updateFirst p f (.element t pr cs) =
          (.element t pr (updateFirstList p f cs).1, (updateFirstList p f cs).2) := by
        rw [updateFirst, if_neg hp]
      rw [hshape]
      refine ⟨?_, hrest.2⟩
      rw [selectNode]
      rw [if_neg (by rw [hinv t pr _ cs]; exact hp)]
      exact hrest.1

theorem removeList_mem {test : Node → Bool} :
    ∀ {cs : List Node} {c' : Node}, c' ∈ removeList test cs →
      ∃ c ∈ cs, removeNode test c = some c' := by
  intro cs
  induction cs with
  | nil => intro c' h; rw [removeList] at h; cases h
  | cons c cs ih =>
    intro c' h
    rw [removeList] at h
    cases hrm : removeNode test c with
    | some c0 =>
      rw [hrm] at h
      cases h with
      | head => exact ⟨c, List.mem_cons_self c cs, hrm⟩
      | tail _ h' =>
        obtain ⟨c1, hc1, hc1'⟩ := ih h'
        exact ⟨c1, List.mem_cons_of_mem c hc1, hc1'⟩
    | none =>
      rw [hrm] at h
      obtain ⟨c1, hc1, hc1'⟩ := ih h
      exact ⟨c1, List.mem_cons_of_mem c hc1, hc1'⟩

/-- Shape of a surviving element: same tag and properties, children drawn
from the removal of the original children. -/
theorem removeNode_elem_shape {test : Node → Bool} {t : String} {p : Props}
    {cs : List Node} {n' : Node} (h : removeNode test (.element t p cs) = some n') :
    test (.element t p cs) = false ∧ n' = .element t p (removeList test cs) := by
  rw [removeNode] at h
  by_cases hg : test (.element t p cs) = true
  · rw [if_pos hg] at h; cases h
  · rw [if_neg hg] at h
    by_cases hc : (cs.length != 0 && (removeList test cs).length == 0) = true
    · rw [if_pos hc] at h; cases h
    · rw [if_neg hc] at h
      cases h
      exact ⟨Bool.eq_false_iff.mpr hg, rfl⟩

/-- Soundness of `remove`: when matching ignores children, no node of a
surviving subtree satisfies the removal test. -/
theorem removeNode_clean {test : Node → Bool}
    (hinv : ∀ t p cs cs', test (.element t p cs) = test (.element t p cs')) :
    ∀ {d n' : Node}, Occurs d n' → ∀ {n : Node}, removeNode test n = some n' →
      test d = false := by
  intro d n' hocc
  induction hocc with
  | refl =>
    intro n h
    cases n with
    | text v =>
      rw [removeNode] at h
      by_cases hg : test (.text v) = true
      · rw [if_pos hg] at h; cases h
      · rw [if_neg hg] at h
        cases h
        exact Bool.eq_false_iff.mpr hg
    | element t p cs =>
      obtain ⟨hg, hshape⟩ := removeNode_elem_shape h
      subst hshape
      rw [hinv t p _ cs]
      exact hg
  | child hmem _ ih =>
    intro n h
    cases n with
    | text v =>
      rw [removeNode] at h
      by_cases hg : test (.text v) = true
      · rw [if_pos hg] at h; cases h
      · rw [if_neg hg] at h; cases h
    | element t0 p0 cs0 =>
      obtain ⟨_, hshape⟩ := removeNode_elem_shape h
      injection hshape with ht hp hcs
      subst hcs
      obtain ⟨c0, hc0, hc0'⟩ := removeList_mem hmem
      exact ih hc0'

/-- Selector matching looks only at the tag and the properties, never at the
children. -/
theorem matchesSel_label (sel : Selector) (t : String) (p : Props) (cs cs' : List Node) :
    matchesSel sel (.element t p cs) = matchesSel sel (.element t p cs') := rfl

theorem minifyTest_label (m : MinifyOptions) (t : String) (p : Props) (cs cs' : List Node) :
    minifyTest m (.element t p cs) = minifyTest m (.element t p cs') := rfl

theorem getLast?_mem' {α : Type} : ∀ {l : List α} {a : α}, l.getLast? = some a → a ∈ l := by
  intro l
  induction l with
  | nil => intro a h; cases h
  | cons x xs ih =>
    intro a h
    cases xs with
    | nil =>
      cases h
      exact List.mem_cons_self x []
    | cons y ys =>
      rw [List.getLast?_cons_cons] at h
      exact List.mem_cons_of_mem x (ih h)

theorem headNonWs_collapse_true : ∀ cs : List Char, headNonWs (collapseAux true cs) = true := by
  intro cs
  induction cs with
  | nil => rfl
  | cons c cs ih =>
    rw [collapseAux]
    by_cases hw : isJsWs c = true
    · rw [if_pos hw, if_pos rfl]
      exact ih
    · rw [if_neg hw]
      rw [headNonWs, List.head?_cons]
      simp [hw]

theorem noTwoWs_cons_nonws {c : Char} {l : List Char} (h : isJsWs c = false)
    (hl : noTwoWs l = true) : noTwoWs (c :: l) = true := by
  cases l with
  | nil => rfl
  | cons d ds =>
    rw [noTwoWs, h]
    simpa using hl

theorem noTwoWs_cons_headNonWs {c : Char} {l : List Char} (hh : headNonWs l = true)
    (hl : noTwoWs l = true) : noTwoWs (c :: l) = true := by
  cases l with
  | nil => rfl
  | cons d ds =>
    rw [headNonWs, List.head?_cons] at hh
    rw [noTwoWs]
    simp only [Bool.not_eq_true'] at hh
    rw [hh]
    simpa using hl

theorem noTwoWs_collapse : ∀ (cs : List Char) (b : Bool), noTwoWs (collapseAux b cs) = true := by
  intro cs
  induction cs with
  | nil => intro b; rfl
  | cons c cs ih =>
    intro b
    rw [collapseAux]
    by_cases hw : isJsWs c = true
    · rw [if_pos hw]
      cases b with
      | true => rw [if_pos rfl]; exact ih true
      | false =>
        rw [if_neg (by simp)]
        exact noTwoWs_cons_headNonWs (headNonWs_collapse_true cs) (ih true)
    · rw [if_neg hw]
      exact noTwoWs_cons_nonws (Bool.not_eq_true _ ▸ (by simpa using hw)) (ih false)

theorem collapse_ne_nil : ∀ {cs : List Char} {c : Char}, isJsWs c = false → c ∈ cs →
    ∀ b, collapseAux b cs ≠ [] := by
  intro cs
  induction cs with
  | nil => intro c _ hc; cases hc
  | cons c0 cs ih =>
    intro c hcw hc b
    rw [collapseAux]
    by_cases hw0 : isJsWs c0 = true
    · have hc' : c ∈ cs := by
        cases hc with
        | head => rw [hcw] at hw0; cases hw0
        | tail _ h' => exact h'
      cases b with
      | true => rw [if_pos hw0, if_pos rfl]; exact ih hcw hc' true
      | false =>
        rw [if_pos hw0, if_neg (by simp)]
        exact List.cons_ne_nil _ _
    · rw [if_neg hw0]
      exact List.cons_ne_nil _ _

theorem lastNonWs_cons {x : Char} {l : List Char} (h : l ≠ []) :
    lastNonWs (x :: l) = lastNonWs l := by
  obtain ⟨y, ys, rfl⟩ := List.exists_cons_of_ne_nil h
  rw [lastNonWs, lastNonWs, List.getLast?_cons_cons]

theorem lastNonWs_collapse : ∀ (cs : List Char) (b : Bool), lastNonWs cs = true →
    lastNonWs (collapseAux b cs) = true := by
  intro cs
  induction cs with
  | nil => intro b _; rfl
  | cons c cs ih =>
    intro b hlast
    cases cs with
    | nil =>
      have hw : isJsWs c = false := by
        rw [lastNonWs] at hlast
        simpa using hlast
      rw [collapseAux, if_neg (by simp [hw])]
      rw [collapseAux]
      rw [lastNonWs]
      simp [hw]
    | cons d ds =>
      have hlast' : lastNonWs (d :: ds) = true := by
        rw [lastNonWs_cons (List.cons_ne_nil d ds)] at hlast
        exact hlast
      have hlx : ∃ x, (d :: ds).getLast? = some x ∧ isJsWs x = false := by
        cases hx : (d :: ds).getLast? with
        | none => simp at hx
        | some x =>
          refine ⟨x, rfl, ?_⟩
          rw [lastNonWs, hx] at hlast'
          simpa using hlast'
      obtain ⟨x, hx, hxw⟩ := hlx
      have hne : ∀ b', collapseAux b' (d :: ds) ≠ [] :=
        collapse_ne_nil hxw (getLast?_mem' hx)
      rw [collapseAux]
      by_cases hw : isJsWs c = true
      · cases b with
        | true =>
          rw [if_pos hw, if_pos rfl]
          exact ih true hlast'
        | false =>
          rw [if_pos hw, if_neg (by simp)]
          rw [lastNonWs_cons (hne true)]
          exact ih true hlast'
      · rw [if_neg hw]
        rw [lastNonWs_cons (hne false)]
        exact ih false hlast'

theorem headNonWs_dropWhile : ∀ l : List Char, headNonWs (l.dropWhile isJsWs) = true := by
  intro l
  induction l with
  | nil => rfl
  | cons c cs ih =>
    rw [List.dropWhile_cons]
    by_cases hw : isJsWs c = true
    · rw [if_pos hw]; exact ih
    · rw [if_neg hw]
      rw [headNonWs, List.head?_cons]
      simp [hw]

theorem getLast?_dropWhile (p : Char → Bool) :
    ∀ l : List Char, l.dropWhile p ≠ [] → (l.dropWhile p).getLast? = l.getLast? := by
  intro l
  induction l with
  | nil => intro h; cases h rfl
  | cons c cs ih =>
    intro h
    rw [List.dropWhile_cons] at h ⊢
    by_cases hp : p c = true
    · rw [if_pos hp] at h ⊢
      have hcs : cs ≠ [] := by
        intro hnil
        rw [hnil] at h
        exact h rfl
      obtain ⟨y, ys, rfl⟩ := List.exists_cons_of_ne_nil hcs
      rw [List.getLast?_cons_cons]
      exact ih h
    · rw [if_neg hp]

/-- Trimming leaves no whitespace at either end. -/
theorem wsTrimmed_jsTrim (s : String) : wsTrimmed (jsTrim s).data = true := by
  rw [jsTrim]
  show wsTrimmed (((s.data.dropWhile isJsWs).reverse.dropWhile isJsWs).reverse) = true
  rw [wsTrimmed]
  refine Bool.and_eq_true_iff.mpr ⟨?_, ?_⟩
  · rw [headNonWs, List.head?_reverse]
    by_cases h2 : (s.data.dropWhile isJsWs).reverse.dropWhile isJsWs = []
    · rw [h2]; rfl
    · rw [getLast?_dropWhile isJsWs _ h2, List.getLast?_reverse]
      have := headNonWs_dropWhile s.data
      rw [headNonWs] at this
      exact this
  · rw [lastNonWs, List.getLast?_reverse]
    have := headNonWs_dropWhile ((s.data.dropWhile isJsWs).reverse)
    rw [headNonWs] at this
    exact this

/-- Collapsing preserves trimmedness. -/
theorem wsTrimmed_collapseWs (m : String) (h : wsTrimmed m.data = true) :
    wsTrimmed (collapseWs m).data = true := by
  rw [collapseWs]
  show wsTrimmed (collapseAux false m.data) = true
  rw [wsTrimmed] at h ⊢
  obtain ⟨hh, hl⟩ := Bool.and_eq_true_iff.mp h
  refine Bool.and_eq_true_iff.mpr ⟨?_, lastNonWs_collapse m.data false hl⟩
  cases hd : m.data with
  | nil => rw [collapseAux]; rfl
  | cons c cs =>
    rw [hd] at hh
    rw [headNonWs, List.head?_cons] at hh
    simp only [Bool.not_eq_true'] at hh
    rw [collapseAux, if_neg (by simp [hh])]
    rw [headNonWs, List.head?_cons]
    simp [hh]

theorem filterMap_range_eq_map {β : Type} (f : Nat → Option β) (g : Nat → β) :
    ∀ n : Nat, (∀ i, i < n → f i = some (g i)) →
      (List.range n).filterMap f = (List.range n).map g := by
  intro n
  induction n with
  | zero => intro _; rfl
  | succ n ih =>
    intro h
    rw [List.range_succ, List.filterMap_append, List.map_append,
      ih (fun i hi => h i (Nat.lt_succ_of_lt hi))]
    simp [h n (Nat.lt_succ_self n)]

/-! ## Lemmas about the Code-Block Normalizer -/

/-- Matching on the `code` tag ignores the properties and the children. -/
theorem matchesSel_codeSel_props (ct : String) (p1 p2 : Props) (cs1 cs2 : List Node) :
    matchesSel codeSel (.element ct p1 cs1) = matchesSel codeSel (.element ct p2 cs2) := rfl

theorem prefixFirstTextChild_cons (m st : String) (sp : Props) (v : String) (rest : List Node) :
    prefixFirstTextChild m (.element st sp (.text v :: rest)) =
      .element st sp (.text (m ++ v) :: rest) := rfl

/-- Declared language `diff`: the class is attached, the children are left
untouched. -/
theorem transformCode_diffLang (ct : String) (cp : Props) (ccs : List Node) :
    transformCode "diff" (.element ct cp ccs) =
      .element ct (pushClass cp "language-diff") ccs := rfl

theorem transformCode_noDiffLines {lang : String} (hlang : (lang == "diff") = false)
    (ct : String) (cp : Props) (ccs : List Node)
    (hempty : ccs.filter (fun c => matchesSel diffLineSel c) = []) :
    transformCode lang (.element ct cp ccs) =
      .element ct (pushClass cp ("language-" ++ lang)) ccs := by
  simp only [transformCode, hlang, Bool.false_eq_true, if_false, hempty,
    List.isEmpty_nil, if_true]

theorem transformCode_withDiffLines {lang : String} (hlang : (lang == "diff") = false)
    (ct : String) (cp : Props) (ccs : List Node)
    (hne : ccs.filter (fun c => matchesSel diffLineSel c) ≠ []) :
    transformCode lang (.element ct cp ccs) =
      .element ct (pushClass cp "language-diff")
        (ccs.map (fun c => if matchesSel diffLineSel c then prefixDiffLine c else c)) := by
  simp only [transformCode, hlang, Bool.false_eq_true, if_false]
  rw [if_neg (fun h => hne (List.isEmpty_iff.mp h))]

/-- The language step routes the first `code` element through
`transformCode` when a `pre` with a truthy language and a `code` are both
found. -/
theorem ecLangStep_some {inst pre code : Node} {lang : String}
    (hpre : selectNode (matchesSel preSel) inst = some pre)
    (hcode : selectNode (matchesSel codeSel) inst = some code)
    (hlang : langOf pre = some lang)
    (hf : matchesSel codeSel (transformCode lang code) = true) :
    selectNode (matchesSel codeSel) (ecLangStep inst) = some (transformCode lang code) := by
  simp only [ecLangStep, hpre, hcode, hlang]
  exact (updateFirst_select (fun a b c d => matchesSel_label codeSel a b c d) hcode hf).1

/-- The language step is a no-op when the `pre`, the `code`, or the truthy
language attribute is missing. -/
theorem ecLangStep_noop {inst : Node}
    (h : selectNode (matchesSel preSel) inst = none ∨
         selectNode (matchesSel codeSel) inst = none ∨
         ∃ pre2, selectNode (matchesSel preSel) inst = some pre2 ∧ langOf pre2 = none) :
    ecLangStep inst = inst := by
  rcases h with h | h | ⟨pre2, hpre2, hlang2⟩
  · simp only [ecLangStep, h]
  · cases hp : selectNode (matchesSel preSel) inst with
    | none => simp only [ecLangStep, hp]
    | some q => simp only [ecLangStep, hp, h]
  · cases hc : selectNode (matchesSel codeSel) inst with
    | none => simp only [ecLangStep, hpre2, hc]
    | some q => simp only [ecLangStep, hpre2, hc, hlang2]

/-- First-text-run prefixing inside one flagged line. -/
theorem prefixDiffLine_spec (lt : String) (lp : Props) (lcs : List Node)
    (st : String) (sp : Props) (v : String) (rest : List Node)
    (hspan : selectNode (matchesSel spanNotIndentSel) (.element lt lp lcs) =
      some (.element st sp (.text v :: rest))) :
    selectNode (matchesSel spanNotIndentSel) (prefixDiffLine (.element lt lp lcs)) =
      some (.element st sp
        (.text ((if lp.className.contains "ins" then "+" else "-") ++ v) :: rest)) := by
  have hsat := selectNode_sat hspan
  have hf : matchesSel spanNotIndentSel
      (prefixFirstTextChild (if lp.className.contains "ins" then "+" else "-")
        (.element st sp (.text v :: rest))) = true := by
    rw [prefixFirstTextChild_cons]
    exact (matchesSel_label spanNotIndentSel st sp _ _).trans hsat
  have h := (updateFirst_select (fun a b c d => matchesSel_label spanNotIndentSel a b c d)
    hspan hf).1
  simp only [prefixDiffLine]
  rw [h, prefixFirstTextChild_cons]

/-! ## Claims -/

/-- C7: for every input tree, when minification is not requested the Minify
Filter stage returns the tree unchanged, whatever the configured selectors and
aside-variant flags are. -/
theorem minify_not_requested_identity (m : MinifyOptions) (tree : List Node) :
    minifyStage m false tree = tree := rfl

/-- C2 counterexample: an element carrying only the flagged variant class
`starlight-aside--note` (without the `starlight-aside` class) survives the
Minify Filter although it matches the flagged-variant selector
`.starlight-aside--note` and the `note` flag is set — so, as stated, the
claim's invariant fails. -/
theorem minify_invariant_counterexample :
    minifyStage minifyDefaults true [bareVariantAside] = [bareVariantAside] ∧
    bareVariantAside ∈ minifyStage minifyDefaults true [bareVariantAside] ∧
    matchesSel (asideVariantSel "note") bareVariantAside = true ∧
    minifyDefaults.note = true := by
  refine ⟨rfl, ?_, rfl, rfl⟩
  rw [show minifyStage minifyDefaults true [bareVariantAside] = [bareVariantAside] from rfl]
  exact List.mem_cons_self _ _

/-- C2 (amended): with minification requested, and provided `remove` does
not cascade at the hast root (some root child survives, or the tree was
empty), no node remaining in the result — at any depth — satisfies the
removal predicate: it matches no configured custom selector, not the
`details` selector when that flag is set, and it is not an aside
(`.starlight-aside`) whose variant class
(`.starlight-aside--note`/`tip`/`caution`/`danger`) has its flag set.  When
every root child is removed, `preorder` returns before truncating and the
whole tree is left intact instead. -/
theorem minify_invariant_amended (m : MinifyOptions) (tree : List Node) (root d : Node)
    (hnc : removeList (minifyTest m) tree ≠ [] ∨ tree = [])
    (hroot : root ∈ minifyStage m true tree) (hocc : Occurs d root) :
    minifyTest m d = false := by
  have hstage : minifyStage m true tree = removeList (minifyTest m) tree := by
    show (if tree.length != 0 && (removeList (minifyTest m) tree).length == 0 then tree
      else removeList (minifyTest m) tree) = removeList (minifyTest m) tree
    rcases hnc with h | h
    · rw [if_neg]
      simp only [Bool.and_eq_true, bne_iff_ne, ne_eq, beq_iff_eq]
      intro hx
      exact h (List.length_eq_zero.mp hx.2)
    · subst h
      rfl
  rw [hstage] at hroot
  obtain ⟨c0, _, hc0⟩ := removeList_mem hroot
  exact removeNode_clean (minifyTest_label m) hocc hc0

theorem minify_invariant_amended_witness :
    minifyTest minifyDefaults (.element "p" {} [.text "keep"]) = false := by
  refine minify_invariant_amended minifyDefaults minifySampleTree
    (.element "p" {} [.text "keep"]) (.element "p" {} [.text "keep"])
    (Or.inl ?_) ?_ (Occurs.refl _)
  · rw [show removeList (minifyTest minifyDefaults) minifySampleTree
        = [.element "p" {} [.text "keep"]] from rfl]
    exact List.cons_ne_nil _ _
  · rw [show minifyStage minifyDefaults true minifySampleTree
        = [.element "p" {} [.text "keep"]] from rfl]
    exact List.mem_cons_self _ _

/-- The root cascade in action: a tree whose only root child is a `details`
element is left intact by the Minify Filter even though `details: true` is
set — `remove` returns before truncating the root's children. -/
theorem minify_root_cascade_example :
    minifyStage minifyDefaults true [.element "details" {} [.text "d"]]
      = [.element "details" {} [.text "d"]] := rfl

/-- C9: an entry whose identifier ends in `.mdx`, or any entry when the
`rawMDX` flag is enabled, bypasses the pipeline: `entryToSimpleMarkdown`
returns the raw body text unchanged. -/
theorem entry_passthrough (ctx : Context) (entry : Entry) (b : Bool) (s body : String)
    (hpass : strEndsWith entry.id ".mdx" = true ∨ ctx.rawMDX = true)
    (hbody : entry.body = some body) :
    entryToSimpleMarkdown ctx entry b s = body := by
  rw [entryToSimpleMarkdown]
  have hcond : (strEndsWith entry.id ".mdx" || ctx.rawMDX) = true := by
    rcases hpass with h | h <;> simp [h]
  rw [if_pos hcond, hbody]
  rfl

theorem entry_passthrough_witness :
    entryToSimpleMarkdown ⟨false, minifyDefaults⟩
      ⟨"guides/example.mdx", some "  raw **body** \n"⟩ true "serialized"
      = "  raw **body** \n" :=
  entry_passthrough _ _ _ _ _ (Or.inl rfl) rfl

/-- C10: on the passthrough path the output is returned with no trimming and
no whitespace collapse, even when minification is requested and the
whitespace flag is enabled; an absent body yields the empty string. -/
theorem entry_passthrough_no_postprocess (ctx : Context) (entry : Entry) (s : String)
    (hpass : strEndsWith entry.id ".mdx" = true ∨ ctx.rawMDX = true)
    (hws : ctx.minify.whitespace = true) :
    entryToSimpleMarkdown ctx entry true s = entry.body.getD "" ∧
    (entry.body = none → entryToSimpleMarkdown ctx entry true s = "") := by
  have hcond : (strEndsWith entry.id ".mdx" || ctx.rawMDX) = true := by
    rcases hpass with h | h <;> simp [h]
  constructor
  · rw [entryToSimpleMarkdown, if_pos hcond]
  · intro hnone
    rw [entryToSimpleMarkdown, if_pos hcond, hnone]
    rfl

theorem entry_passthrough_no_postprocess_witness :
    entryToSimpleMarkdown ⟨true, minifyDefaults⟩ ⟨"guides/example.md", some "  a \n b  "⟩
        true "serialized" = "  a \n b  " ∧
    entryToSimpleMarkdown ⟨true, minifyDefaults⟩ ⟨"guides/other.md", none⟩
        true "serialized" = "" := by
  constructor
  · exact (entry_passthrough_no_postprocess ⟨true, minifyDefaults⟩
      ⟨"guides/example.md", some "  a \n b  "⟩ "serialized" (Or.inr rfl) rfl).1
  · exact (entry_passthrough_no_postprocess ⟨true, minifyDefaults⟩
      ⟨"guides/other.md", none⟩ "serialized" (Or.inr rfl) rfl).2 rfl

/-- C6: after serialization, the string post-pass collapses every whitespace
run to one space exactly when minification was requested and the whitespace
flag is set (so no two consecutive whitespace characters remain); otherwise
the serialized text is only trimmed, preserving all interior whitespace runs;
in all cases the output is trimmed of leading and trailing whitespace. -/
theorem whitespace_collapse_spec (bmin bws : Bool) (s : String) :
    ((bmin && bws) = true → noTwoWs (postSerialize bmin bws s).data = true) ∧
    ((bmin && bws) = false → postSerialize bmin bws s = jsTrim s) ∧
    wsTrimmed (postSerialize bmin bws s).data = true := by
  refine ⟨?_, ?_, ?_⟩
  · intro h
    rw [postSerialize, if_pos h]
    exact noTwoWs_collapse _ false
  · intro h
    rw [postSerialize, if_neg (by rw [h]; exact Bool.false_ne_true)]
  · by_cases hc : (bmin && bws) = true
    · rw [postSerialize, if_pos hc]
      exact wsTrimmed_collapseWs _ (wsTrimmed_jsTrim s)
    · rw [postSerialize, if_neg hc]
      exact wsTrimmed_jsTrim s

theorem whitespace_collapse_spec_witness :
    noTwoWs (postSerialize true true "a \n\n b").data = true ∧
    postSerialize false true "a \n\n b" = jsTrim "a \n\n b" ∧
    wsTrimmed (postSerialize true true "a \n\n b").data = true :=
  ⟨(whitespace_collapse_spec true true "a \n\n b").1 rfl,
   (whitespace_collapse_spec false true "a \n\n b").2.1 rfl,
   (whitespace_collapse_spec true true "a \n\n b").2.2⟩

/-- C8 counterexample: a `starlight-file-tree` widget whose only child is
the screen-reader-only `span` survives the whole pipeline unchanged, with
the minify flag both off and on: `remove` cascades at the call root
(`position === 0`) before truncating, so the `.sr-only` descendant is NOT
removed. -/
theorem filetree_counterexample :
    transformTree minifyDefaults false fileTreeAllLabels = fileTreeAllLabels ∧
    transformTree minifyDefaults true fileTreeAllLabels = fileTreeAllLabels ∧
    matchesSel srOnlySel
      (.element "span" {className := ["sr-only"]} [.text "Directory"]) = true ∧
    Occurs (.element "span" {className := ["sr-only"]} [.text "Directory"])
      (.element "starlight-file-tree" {className := ["ft"]}
        [.element "span" {className := ["sr-only"]} [.text "Directory"]]) :=
  ⟨rfl, rfl, rfl, Occurs.child (List.mem_cons_self _ _) (Occurs.refl _)⟩

/-- C8 (amended): the File-Tree Label Stripper runs on every pipeline
invocation, independently of the minify flag; for a `starlight-file-tree`
widget that does not itself match `.sr-only` and whose `remove` call does
not cascade at the call root (it is childless, or keeps at least one child),
every node below the widget after the removal fails `.sr-only` — the labels
are stripped subtree-wide.  When the widget itself matches `.sr-only`, or
all of its children are removed, `remove` returns before truncating and the
widget keeps its children untouched. -/
theorem filetree_srOnly_stripped_amended (t : String) (p : Props) (cs : List Node)
    (hself : matchesSel srOnlySel (.element t p cs) = false)
    (hnc : removeList (matchesSel srOnlySel) cs ≠ [] ∨ cs = []) :
    (∀ d c : Node,
      c ∈ childrenOf (removeOnNode (matchesSel srOnlySel) (.element t p cs)) →
      Occurs d c → matchesSel srOnlySel d = false) ∧
    (∀ (m : MinifyOptions) (b : Bool) (tree : List Node),
      transformTree m b tree =
        fileTreePassList (tabsPassList (ecPassList (minifyStage m b tree)))) := by
  constructor
  · intro d c hc hdc
    have hshape : removeOnNode (matchesSel srOnlySel) (.element t p cs) =
        .element t p (removeList (matchesSel srOnlySel) cs) := by
      rw [removeOnNode]
      rw [if_neg (by rw [hself]; exact Bool.false_ne_true)]
      rcases hnc with h | h
      · rw [if_neg (by simp [List.length_eq_zero.not.mpr h])]
      · subst h
        rfl
    rw [hshape, childrenOf] at hc
    obtain ⟨c0, _, hc0⟩ := removeList_mem hc
    exact removeNode_clean (fun t1 p1 l1 l1p => matchesSel_label srOnlySel t1 p1 l1 l1p)
      hdc hc0
  · intro m b tree
    rfl

theorem filetree_srOnly_stripped_amended_witness :
    matchesSel srOnlySel (.text "src") = false ∧
    transformTree minifyDefaults true fileTreeSample =
      fileTreePassList (tabsPassList (ecPassList (minifyStage minifyDefaults true
        fileTreeSample))) := by
  have h := filetree_srOnly_stripped_amended "starlight-file-tree" {className := ["ft"]}
    [.element "li" {}
      [.element "span" {className := ["sr-only"]} [.text "Directory"], .text "src"]]
    rfl
    (Or.inl (by
      rw [show removeList (matchesSel srOnlySel)
          [.element "li" {}
            [.element "span" {className := ["sr-only"]} [.text "Directory"], .text "src"]]
          = [.element "li" {} [.text "src"]] from rfl]
      exact List.cons_ne_nil _ _))
  refine ⟨h.1 (.text "src") (.element "li" {} [.text "src"]) ?_ ?_,
    h.2 minifyDefaults true fileTreeSample⟩
  · rw [show childrenOf (removeOnNode (matchesSel srOnlySel)
        (.element "starlight-file-tree" {className := ["ft"]}
          [.element "li" {}
            [.element "span" {className := ["sr-only"]} [.text "Directory"],
             .text "src"]]))
        = [.element "li" {} [.text "src"]] from rfl]
    exact List.mem_cons_self _ _
  · exact Occurs.child (List.mem_cons_self _ _) (Occurs.refl _)

/-- C3: the Tabs Flattener turns a tabs widget with N tab-label elements
(role `tab`) and M panel elements (role `tabpanel`) into an unordered list
with cleared attributes holding exactly `min(N, M)` list items in pairing
order, each item being a paragraph with the tab's filtered label text
followed by the tab's original panel node. -/
theorem tabs_flattened (t : String) (p : Props) (cs : List Node) :
    flattenTabsInstance (.element t p cs) =
      .element "ul" emptyProps
        ((List.range (min (selectAllNode (matchesSel roleTabSel) (.element t p cs)).length
            (selectAllNode (matchesSel roleTabPanelSel) (.element t p cs)).length)).map
          (fun i =>
            .element "li" emptyProps
              [.element "p" emptyProps
                [.text (tabLabel ((selectAllNode (matchesSel roleTabSel)
                    (.element t p cs)).getD i (.text "")))],
               (selectAllNode (matchesSel roleTabPanelSel)
                  (.element t p cs)).getD i (.text "")])) ∧
    (childrenOf (flattenTabsInstance (.element t p cs))).length =
      min (selectAllNode (matchesSel roleTabSel) (.element t p cs)).length
        (selectAllNode (matchesSel roleTabPanelSel) (.element t p cs)).length := by
  have hmain : flattenTabsInstance (.element t p cs) =
      .element "ul" emptyProps
        ((List.range (min (selectAllNode (matchesSel roleTabSel) (.element t p cs)).length
            (selectAllNode (matchesSel roleTabPanelSel) (.element t p cs)).length)).map
          (fun i =>
            .element "li" emptyProps
              [.element "p" emptyProps
                [.text (tabLabel ((selectAllNode (matchesSel roleTabSel)
                    (.element t p cs)).getD i (.text "")))],
               (selectAllNode (matchesSel roleTabPanelSel)
                  (.element t p cs)).getD i (.text "")])) := by
    simp only [flattenTabsInstance]
    congr 1
    refine filterMap_range_eq_map _ _ _ ?_
    intro i hi
    have hit : i < (selectAllNode (matchesSel roleTabSel) (.element t p cs)).length :=
      lt_of_lt_of_le hi (min_le_left _ _)
    have hip : i < (selectAllNode (matchesSel roleTabPanelSel) (.element t p cs)).length :=
      lt_of_lt_of_le hi (min_le_right _ _)
    rw [List.getElem?_eq_getElem hit, List.getElem?_eq_getElem hip]
    simp [List.getD, List.getElem?_eq_getElem hit, List.getElem?_eq_getElem hip]
  refine ⟨hmain, ?_⟩
  rw [hmain, childrenOf, List.length_map, List.length_range]

/-- C1 counterexample: the rich code sample declaring `data-language="diff"`
with an `ins` line `foo` and a `del` line `bar` keeps its text runs
unchanged — the normalized code contains the lines `foo` and `bar`, not
`+foo` and `-bar`, because the normalizer computes an empty diff-line list
whenever the declared language is `diff`. -/
theorem diff_declared_counterexample :
    collectTexts (ecInstance diffDeclaredWidget) = ["foo", "bar"] ∧
    "+foo" ∉ collectTexts (ecInstance diffDeclaredWidget) ∧
    "-bar" ∉ collectTexts (ecInstance diffDeclaredWidget) := by
  refine ⟨rfl, ?_, ?_⟩ <;>
    rw [show collectTexts (ecInstance diffDeclaredWidget) = ["foo", "bar"] from rfl] <;>
    decide

/-- C1 (amended): for a rich code sample whose `pre` declares
`data-language="diff"`, the normalizer attaches the class token
`language-diff` to the first `code` element and leaves the code's children —
in particular every flagged line's text runs — entirely unchanged; no `+`/`-`
markers are inserted on this path. -/
theorem diff_declared_amended (inst pre : Node) (ct : String) (cp : Props) (ccs : List Node)
    (hpre : selectNode (matchesSel preSel) (ecFigStep inst) = some pre)
    (hlang : langOf pre = some "diff")
    (hcode : selectNode (matchesSel codeSel) (ecFigStep inst) = some (.element ct cp ccs)) :
    selectNode (matchesSel codeSel) (ecInstance inst) =
      some (.element ct (pushClass cp "language-diff") ccs) ∧
    "language-diff" ∈ (pushClass cp "language-diff").className := by
  have htag := selectNode_sat hcode
  constructor
  · rw [ecInstance, ← transformCode_diffLang ct cp ccs]
    refine ecLangStep_some hpre hcode hlang ?_
    rw [transformCode_diffLang]
    exact (matchesSel_codeSel_props ct (pushClass cp "language-diff") cp ccs ccs).trans htag
  · exact List.mem_append_right _ (List.mem_cons_self _ _)

theorem diff_declared_amended_witness :
    selectNode (matchesSel codeSel) (ecInstance diffDeclaredWidget) =
      some (.element "code" (pushClass {} "language-diff")
        [.element "div" {className := ["ec-line", "ins"]} [.element "span" {} [.text "foo"]],
         .element "div" {className := ["ec-line", "del"]} [.element "span" {} [.text "bar"]]]) ∧
    "language-diff" ∈ (pushClass {} "language-diff").className :=
  diff_declared_amended diffDeclaredWidget diffDeclaredPre "code" {}
    [.element "div" {className := ["ec-line", "ins"]} [.element "span" {} [.text "foo"]],
     .element "div" {className := ["ec-line", "del"]} [.element "span" {} [.text "bar"]]]
    rfl rfl rfl

/-- C4 counterexample: a code block with an `ins` line and a `del` line whose
`pre` has no language attribute is left completely unmodified — the code
element carries no `language-diff` token and no `+`/`-` markers appear. -/
theorem insdel_counterexample :
    matchesSel diffLineSel
      (.element "div" {className := ["ec-line", "ins"]}
        [.element "span" {} [.text "foo"]]) = true ∧
    matchesSel diffLineSel
      (.element "div" {className := ["ec-line", "del"]}
        [.element "span" {} [.text "bar"]]) = true ∧
    ecInstance noLangDiffWidget = noLangDiffWidget ∧
    selectNode (matchesSel codeSel) (ecInstance noLangDiffWidget) =
      some (.element "code" {}
        [.element "div" {className := ["ec-line", "ins"]} [.element "span" {} [.text "foo"]],
         .element "div" {className := ["ec-line", "del"]} [.element "span" {} [.text "bar"]]]) ∧
    "language-diff" ∉ (Props.mk [] none []).className ∧
    collectTexts (ecInstance noLangDiffWidget) = ["foo", "bar"] := by
  refine ⟨rfl, rfl, rfl, rfl, by decide, rfl⟩

/-- C4 (amended): for a code block holding at least one `ins`-flagged and one
`del`-flagged line, provided the `pre` declares a truthy language other than
`diff`, a `code` element is present, and each flagged line has a
non-indentation span whose first child is a text run (the `del` line not
also being flagged `ins`), the normalized code element carries
`language-diff`, the `ins` line's first text run is prefixed with `+` and the
`del` line's with `-`. -/
theorem insdel_prefix_amended (inst pre : Node) (lang ct : String) (cp : Props)
    (ccs : List Node) (lineI lineD : Node) (stI stD : String) (spI spD : Props)
    (vI vD : String) (restI restD : List Node)
    (hpre : selectNode (matchesSel preSel) (ecFigStep inst) = some pre)
    (hlang : langOf pre = some lang)
    (hnd : (lang == "diff") = false)
    (hcode : selectNode (matchesSel codeSel) (ecFigStep inst) = some (.element ct cp ccs))
    (hIm : lineI ∈ ccs) (hImatch : matchesSel diffLineSel lineI = true)
    (hIins : (classNameOf lineI).contains "ins" = true)
    (hIspan : selectNode (matchesSel spanNotIndentSel) lineI =
      some (.element stI spI (.text vI :: restI)))
    (hDm : lineD ∈ ccs) (hDmatch : matchesSel diffLineSel lineD = true)
    (hDins : (classNameOf lineD).contains "ins" = false)
    (hDspan : selectNode (matchesSel spanNotIndentSel) lineD =
      some (.element stD spD (.text vD :: restD))) :
    selectNode (matchesSel codeSel) (ecInstance inst) =
      some (.element ct (pushClass cp "language-diff")
        (ccs.map (fun c => if matchesSel diffLineSel c then prefixDiffLine c else c))) ∧
    "language-diff" ∈ (pushClass cp "language-diff").className ∧
    prefixDiffLine lineI ∈
      ccs.map (fun c => if matchesSel diffLineSel c then prefixDiffLine c else c) ∧
    selectNode (matchesSel spanNotIndentSel) (prefixDiffLine lineI) =
      some (.element stI spI (.text ("+" ++ vI) :: restI)) ∧
    prefixDiffLine lineD ∈
      ccs.map (fun c => if matchesSel diffLineSel c then prefixDiffLine c else c) ∧
    selectNode (matchesSel spanNotIndentSel) (prefixDiffLine lineD) =
      some (.element stD spD (.text ("-" ++ vD) :: restD)) := by
  have htag := selectNode_sat hcode
  have hne : ccs.filter (fun c => matchesSel diffLineSel c) ≠ [] := by
    intro h
    have hmem : lineI ∈ ccs.filter (fun c => matchesSel diffLineSel c) :=
      List.mem_filter.mpr ⟨hIm, hImatch⟩
    rw [h] at hmem
    cases hmem
  have hcompute := transformCode_withDiffLines hnd ct cp ccs hne
  refine ⟨?_, List.mem_append_right _ (List.mem_cons_self _ _), ?_, ?_, ?_, ?_⟩
  · rw [ecInstance, ← hcompute]
    refine ecLangStep_some hpre hcode hlang ?_
    rw [hcompute]
    exact (matchesSel_codeSel_props ct (pushClass cp "language-diff") cp _ ccs).trans htag
  · exact List.mem_map.mpr ⟨lineI, hIm, by rw [if_pos hImatch]⟩
  · cases lineI with
    | text v => rw [matchesSel] at hImatch; cases hImatch
    | element lt lp lcs =>
      have h := prefixDiffLine_spec lt lp lcs stI spI vI restI hIspan
      rw [show classNameOf (.element lt lp lcs) = lp.className from rfl] at hIins
      rw [hIins, if_pos rfl] at h
      exact h
  · exact List.mem_map.mpr ⟨lineD, hDm, by rw [if_pos hDmatch]⟩
  · cases lineD with
    | text v => rw [matchesSel] at hDmatch; cases hDmatch
    | element lt lp lcs =>
      have h := prefixDiffLine_spec lt lp lcs stD spD vD restD hDspan
      rw [show classNameOf (.element lt lp lcs) = lp.className from rfl] at hDins
      rw [hDins, if_neg (by exact Bool.false_ne_true)] at h
      exact h

theorem insdel_prefix_amended_witness :
    selectNode (matchesSel codeSel) (ecInstance jsDiffWidget) =
      some (.element "code" (pushClass {} "language-diff")
        ([jsDiffInsLine, jsDiffDelLine].map
          (fun c => if matchesSel diffLineSel c then prefixDiffLine c else c))) ∧
    "language-diff" ∈ (pushClass {} "language-diff").className ∧
    prefixDiffLine jsDiffInsLine ∈
      [jsDiffInsLine, jsDiffDelLine].map
        (fun c => if matchesSel diffLineSel c then prefixDiffLine c else c) ∧
    selectNode (matchesSel spanNotIndentSel) (prefixDiffLine jsDiffInsLine) =
      some (.element "span" {} (.text ("+" ++ "foo") :: [])) ∧
    prefixDiffLine jsDiffDelLine ∈
      [jsDiffInsLine, jsDiffDelLine].map
        (fun c => if matchesSel diffLineSel c then prefixDiffLine c else c) ∧
    selectNode (matchesSel spanNotIndentSel) (prefixDiffLine jsDiffDelLine) =
      some (.element "span" {} (.text ("-" ++ "bar") :: [])) :=
  insdel_prefix_amended jsDiffWidget jsDiffPre "js" "code" {}
    [jsDiffInsLine, jsDiffDelLine] jsDiffInsLine jsDiffDelLine "span" "span" {} {}
    "foo" "bar" [] []
    rfl rfl rfl rfl (List.mem_cons_self _ _) rfl rfl rfl
    (List.mem_cons_of_mem _ (List.mem_cons_self _ _)) rfl rfl rfl

/-- C5: for a rich code sample whose `pre` declares language `python` and
whose code has no `ins`/`del`-flagged lines, the normalized code element
carries the class token `language-python` and not `language-diff`; and
whenever the `pre`/`code` pair cannot be located or the language attribute is
absent (or empty, hence falsy), the instance's code element is left
unmodified — the language step changes nothing at all. -/
theorem python_code_classed (inst pre : Node) (ct : String) (cp : Props) (ccs : List Node)
    (hpre : selectNode (matchesSel preSel) (ecFigStep inst) = some pre)
    (hlang : langOf pre = some "python")
    (hcode : selectNode (matchesSel codeSel) (ecFigStep inst) = some (.element ct cp ccs))
    (hnodiff : ccs.filter (fun c => matchesSel diffLineSel c) = [])
    (hnotdiff : "language-diff" ∉ cp.className) :
    selectNode (matchesSel codeSel) (ecInstance inst) =
      some (.element ct (pushClass cp "language-python") ccs) ∧
    "language-python" ∈ (pushClass cp "language-python").className ∧
    "language-diff" ∉ (pushClass cp "language-python").className ∧
    (∀ inst2 : Node,
      (selectNode (matchesSel preSel) (ecFigStep inst2) = none ∨
       selectNode (matchesSel codeSel) (ecFigStep inst2) = none ∨
       ∃ pre2, selectNode (matchesSel preSel) (ecFigStep inst2) = some pre2 ∧
         langOf pre2 = none) →
      ecInstance inst2 = ecFigStep inst2) := by
  have htag := selectNode_sat hcode
  have hcompute : transformCode "python" (.element ct cp ccs) =
      .element ct (pushClass cp "language-python") ccs := by
    rw [transformCode_noDiffLines (by decide) ct cp ccs hnodiff]
    rfl
  refine ⟨?_, List.mem_append_right _ (List.mem_cons_self _ _), ?_, ?_⟩
  · rw [ecInstance, ← hcompute]
    refine ecLangStep_some hpre hcode hlang ?_
    rw [hcompute]
    exact (matchesSel_codeSel_props ct (pushClass cp "language-python") cp ccs ccs).trans htag
  · intro h
    rcases List.mem_append.mp h with h1 | h2
    · exact hnotdiff h1
    · exact absurd (List.mem_singleton.mp h2) (by decide)
  · intro inst2 h2
    rw [ecInstance]
    exact ecLangStep_noop h2

theorem python_code_classed_witness :
    selectNode (matchesSel codeSel) (ecInstance pythonWidget) =
      some (.element "code" (pushClass {} "language-python")
        [.element "div" {className := ["ec-line"]} [.element "span" {} [.text "print(1)"]]]) ∧
    "language-python" ∈ (pushClass {} "language-python").className ∧
    "language-diff" ∉ (pushClass {} "language-python").className ∧
    ecInstance noLangDiffWidget = ecFigStep noLangDiffWidget := by
  have h := python_code_classed pythonWidget pythonPre "code" {}
    [.element "div" {className := ["ec-line"]} [.element "span" {} [.text "print(1)"]]]
    rfl rfl rfl rfl (by decide)
  exact ⟨h.1, h.2.1, h.2.2.1, h.2.2.2 noLangDiffWidget
    (Or.inr (Or.inr ⟨.element "pre" {} [.element "code" {}
      [.element "div" {className := ["ec-line", "ins"]} [.element "span" {} [.text "foo"]],
       .element "div" {className := ["ec-line", "del"]} [.element "span" {} [.text "bar"]]]],
      rfl, rfl⟩))⟩

end StarlightLlmsTxt
